import Mathlib

/-!
# go-rest: tokenizer, URL resolution, replay engine and command dispatcher

A shallow embedding of `main.go` and `rest.go`.

Go strings are modelled as lists of code points (`Str`).  Every delimiter the
program looks for (space, the three quote characters, `/`, the literals `//`,
`set`, `url`, `http:` ...) is ASCII, so on well-formed UTF-8 text the byte-level
functions of package `strings` act exactly as the list functions below.

What the program calls but does not define (package `net/url`, `net/http`,
`encoding/json`, the value case of `reflect.DeepEqual`) is collected in the
record `Lib` and every definition that needs it takes it as an argument.
-/

set_option linter.unusedVariables false

abbrev Str := List Char

abbrev Error := Str

/-! ## Package `strings` and `unicode` -/

/-- The quote characters recognised by `safeSplit`: backtick, single quote, double quote. -/
def backtick : Char := Char.ofNat 96

def squote : Char := Char.ofNat 39

def dquote : Char := Char.ofNat 34

/-- `unicode.IsSpace`. -/
def isSpace (c : Char) : Bool :=
  c = '\t' || c = '\n' || c = Char.ofNat 11 || c = Char.ofNat 12 || c = '\r' || c = ' '
    || c = Char.ofNat 0x85 || c = Char.ofNat 0xA0 || c = Char.ofNat 0x1680
    || (0x2000 ≤ c.toNat && c.toNat ≤ 0x200A)
    || c = Char.ofNat 0x2028 || c = Char.ofNat 0x2029 || c = Char.ofNat 0x202F
    || c = Char.ofNat 0x205F || c = Char.ofNat 0x3000

/-- `strings.HasPrefix(s, p)`. -/
def HasPrefix (s p : Str) : Bool := p.isPrefixOf s

/-- `strings.HasSuffix(s, p)`. -/
def HasSuffix (s p : Str) : Bool := p.isSuffixOf s

/-- `strings.TrimPrefix(s, p)`. -/
def TrimPrefix (s p : Str) : Str := if HasPrefix s p then s.drop p.length else s

/-- `strings.Trim(s, cutset)`: all leading and trailing code points contained in `cutset`
are removed. -/
def Trim (s cutset : Str) : Str :=
  (s.dropWhile (fun c => decide (c ∈ cutset))).rdropWhile (fun c => decide (c ∈ cutset))

/-- `strings.TrimSpace(s)`. -/
def TrimSpace (s : Str) : Str := (s.dropWhile isSpace).rdropWhile isSpace

/-- `strings.Split(s, " ")`: the pieces between single spaces; one more piece than
there are spaces, and `[""]` for the empty string. -/
def Split : Str → List Str
  | [] => [[]]
  | c :: cs =>
    if c = ' ' then [] :: Split cs
    else match Split cs with
      | [] => [[c]]
      | h :: t => (c :: h) :: t

/-- `strings.Join(segs, " ")`. -/
def Join : List Str → Str
  | [] => []
  | [a] => a
  | a :: b :: r => a ++ ' ' :: Join (b :: r)

/-- `strconv.Itoa`. -/
def Itoa (i : Int) : Str :=
  if i < 0 then '-' :: Nat.toDigits 10 i.natAbs else Nat.toDigits 10 i.toNat

/-! ## `safeSplit` (main.go) -/

/-- The three characters `safeSplit` tests a segment for with `strings.HasPrefix`. -/
def isQuote (c : Char) : Bool := backtick == c || squote == c || dquote == c


/-- The variables of `safeSplit` that live across loop iterations. -/
structure SplitState where
  res : List Str
  inquote : Str
  block : Str
deriving DecidableEq

/-- The closure `addRes` of `safeSplit`. -/
def addRes (st : SplitState) (s : Str) : SplitState :=
  let t := TrimSpace (Trim s st.inquote)
  { res := if t ≠ [] then st.res ++ [t] else st.res, inquote := [], block := [] }

/-- One iteration of the `for _, i := range split` loop of `safeSplit`.
`string(i[0])` is `i.take 1`: the branch is entered only when `i` starts with
one of the three ASCII quote characters. -/
def splitStep (st : SplitState) (i : Str) : SplitState :=
  if st.inquote = [] then
    if HasPrefix i [backtick] || HasPrefix i [squote] || HasPrefix i [dquote] then
      let st1 : SplitState := { st with inquote := i.take 1 }
      if HasSuffix i st1.inquote then addRes st1 i
      else { st1 with block := TrimPrefix i st1.inquote ++ [' '] }
    else addRes st i
  else
    if !HasSuffix i st.inquote then { st with block := st.block ++ i ++ [' '] }
    else addRes st (st.block ++ i)

/-- The state `safeSplit` starts its loop in. -/
def splitInit : SplitState := { res := [], inquote := [], block := [] }

/-- The return value of the function `safeSplit`; the `nil` it returns on mismatched quotes
is the empty list. -/
def safeSplit (s : Str) : List Str :=
  let st := (Split s).foldl splitStep splitInit
  if st.inquote ≠ [] then [] else st.res

/-- The log output of the function `safeSplit`: the final test `if inquote != ""`, under
which it writes `mismatched quotes` to the log before it returns `nil`.  Every caller of
`safeSplit` below appends `LogEntry.mismatchedQuotes` to its log when this holds. -/
def quotesMismatched (s : Str) : Bool :=
  decide (((Split s).foldl splitStep splitInit).inquote ≠ [])

/-! ## rest.go -/

/-- The fields of `url.URL`; `User` holds the user name and the optional password of
`*url.Userinfo`. -/
structure URL where
  Scheme : Str
  Opaque : Str
  User : Option (Str × Option Str)
  Host : Str
  Path : Str
  RawPath : Str
  OmitHost : Bool
  ForceQuery : Bool
  RawQuery : Str
  Fragment : Str
  RawFragment : Str
deriving DecidableEq

abbrev Header := List (Str × List Str)

/-- What `http.NewRequest` builds, as far as `Client.Do` fills it. -/
structure Request where
  Method : Str
  URL : Str
  Body : Option Str
  ContentType : Option Str
deriving DecidableEq

/-- An `http.Response` together with what `ioutil.ReadAll(resp.Body)` yields. -/
structure Response where
  StatusCode : Int
  Header : Header
  Body : Str
  ReadErr : Option Error
deriving DecidableEq

/-- The type `Reply`. -/
structure Reply where
  Err : Option Error
  Status : Int
  Header : Header
  Value : Str
deriving DecidableEq

/-- A Go `map[string]interface{}`: distinct keys, no order that matters. -/
abbrev GoMap (V : Type) := AList (fun _ : Str => V)

/-- The library functions and the network the program talks to.
`σ` is the state behind `http.Client` (cookie jar, servers); `V` is the type of
decoded JSON values.
* `urlParse` is `url.Parse`, which returns either a URL or an error;
* `urlString` is `(*url.URL).String`;
* `newRequest` is the error of `http.NewRequest` for a method and a URL text;
* `roundTrip` is `http.Client.Do`;
* `newJar` installs a fresh `cookiejar.New(nil)`;
* `unmarshal` is `json.Unmarshal` into a nil `map[string]interface{}`
  (`none` is the nil map the JSON text `null` leaves behind);
* `valueEq` is `reflect.DeepEqual` on two decoded values. -/
structure Lib (σ V : Type) where
  urlParse : Str → Except Error URL
  urlString : URL → Str
  newRequest : Str → Str → Option Error
  roundTrip : σ → Request → Except Error Response × σ
  newJar : σ → σ
  unmarshal : Str → Except Error (Option (GoMap V))
  valueEq : V → V → Bool

/-- The type `Client`. -/
structure Client (σ : Type) where
  HTTPClient : σ
  BasaeURL : Str
  ContentType : Str
deriving DecidableEq

/-- `re.ReplaceAllString(p, "/")` for `re = regexp.MustCompile("/+")`: every maximal run
of slashes becomes one slash (a slash that another slash follows is dropped). -/
def reReplaceAllString : Str → Str
  | [] => []
  | [c] => [c]
  | c :: d :: r =>
    if c = '/' ∧ d = '/' then reReplaceAllString (d :: r)
    else c :: reReplaceAllString (d :: r)

/-- The method `GetFullURL`.  `url.Parse` returns a nil URL exactly when it returns an
error, so the guard `if u != nil` is the `.ok` case. -/
def GetFullURL (urlParse : Str → Except Error URL) (BasaeURL subPath : Str) :
    Except Error URL :=
  if HasPrefix subPath "http:".toList || HasPrefix subPath "https:".toList then
    urlParse subPath
  else
    match urlParse (BasaeURL ++ "/".toList ++ subPath) with
    | .ok u => .ok { u with Path := reReplaceAllString u.Path }
    | .error e => .error e

/-- A `Reply` that carries only an error. -/
def errReply (e : Error) : Reply := { Err := some e, Status := 0, Header := [], Value := [] }

/-- The method `Do`, called with `out == nil` (as every call site does).  It returns the
reply and the client, whose `HTTPClient` state the round trip may have changed. -/
def Client.Do {σ V : Type} (lib : Lib σ V) (c : Client σ) (method path : Str)
    (body : Option Str) : Reply × Client σ :=
  match GetFullURL lib.urlParse c.BasaeURL path with
  | .error e => (errReply e, c)
  | .ok u =>
    match lib.newRequest method (lib.urlString u) with
    | some e => (errReply e, c)
    | none =>
      let req : Request :=
        { Method := method, URL := lib.urlString u, Body := body,
          ContentType := if body.isSome then some c.ContentType else none }
      match lib.roundTrip c.HTTPClient req with
      | (.error e, w) => (errReply e, { c with HTTPClient := w })
      | (.ok resp, w) =>
        ({ Err := resp.ReadErr, Status := resp.StatusCode, Header := resp.Header,
           Value := resp.Body }, { c with HTTPClient := w })

/-- The method `Reset`. -/
def Client.Reset {σ V : Type} (lib : Lib σ V) (c : Client σ) : Client σ :=
  { c with HTTPClient := lib.newJar c.HTTPClient }

/-! ## `compareRes` (main.go) -/

/-- `reflect.DeepEqual` on two `map[string]interface{}` values: both nil or both non-nil,
the same number of entries, and every key of the first maps, in the second, to a deeply
equal value. -/
def mapDeepEqual {V : Type} (veq : V → V → Bool) : Option (GoMap V) → Option (GoMap V) → Bool
  | none, none => true
  | some a, some b =>
    a.entries.length == b.entries.length &&
      a.entries.all (fun e =>
        match b.lookup e.1 with
        | some w => veq e.2 w
        | none => false)
  | _, _ => false

/-- The function `compareRes`; `none` is the nil error. -/
def compareRes {σ V : Type} (lib : Lib σ V) (a b : Str) : Option Error :=
  match lib.unmarshal a with
  | .error e => some (a ++ ": ".toList ++ e)
  | .ok am =>
    match lib.unmarshal b with
    | .error e => some (b ++ ": ".toList ++ e)
    | .ok bm =>
      if !mapDeepEqual lib.valueEq am bm then some (a ++ " != ".toList ++ b) else none

/-! ## `replay` (main.go) -/

/-- What the program writes to its log or to standard output, one entry per call. -/
inductive LogEntry where
  | mismatchedQuotes
  | doError (method path : Str) (err : Error)
  | statusMismatch (method path want : Str) (got : Int) (value : Str)
  | bodyMismatch (method path : Str) (err : Error)
  | passed (method path : Str) (status : Int) (value : Str)
  | formatError (args : List Str)
  | invalidArgs (args : List Str)
  | baseURL (url : Str)
  | requestError (err : Error)
  | response (value : Str)
  | headers (h : Header)
deriving DecidableEq

/-- How a loop is left before its input is exhausted: a `return` statement, `log.Fatalf`,
or a run-time panic (index out of range). -/
inductive Exit where
  | returned
  | fatal
  | panicked
deriving DecidableEq

/-- The variables of `replay` that live across loop iterations, the global `client`
and the log written so far. -/
structure ReplayState (σ : Type) where
  client : Client σ
  cmdArgs : List Str
  exp : Bool
  log : List LogEntry
deriving DecidableEq

/-- The effect of one loop iteration: go on with the next line, or leave the loop. -/
inductive Step (α : Type) where
  | next (st : α)
  | stop (e : Exit) (st : α)
deriving DecidableEq

/-- The request body of `replay` and `doReq`: `var body io.Reader`, set to
`strings.NewReader(args[2])` when `len(args) == 3`. -/
def optBody (args : List Str) : Option Str :=
  if args.length = 3 then args.get? 2 else none

/-- After a failed case: `if !*fContinueOnError { return }; continue`. -/
def failed {σ : Type} (cont : Bool) (st : ReplayState σ) : Step (ReplayState σ) :=
  if !cont then .stop .returned st else .next st

/-- The body of the `for br.Scan()` loop of `replay` after `args := safeSplit(br.Text())`
and the `len(args) == 0` test.  `cont` is the flag `-c`.  Every slice index of the source
is a `get?` here, and an index out of range ends the run with `Exit.panicked`. -/
def replayArgs {σ V : Type} (lib : Lib σ V) (cont : Bool) (st : ReplayState σ)
    (args : List Str) : Step (ReplayState σ) :=
  if !st.exp then
    let st : ReplayState σ := { st with cmdArgs := args }
    match st.cmdArgs.get? 0 with
    | none => .next { st with cmdArgs := [] }
    | some c0 =>
      if HasPrefix c0 "//".toList then .next { st with cmdArgs := [] }
      else if c0 = "set".toList then
        match st.cmdArgs.get? 1 with
        | none => .stop .panicked st
        | some c1 =>
          if c1 = "url".toList then
            match st.cmdArgs.get? 2 with
            | none => .stop .panicked st
            | some c2 =>
              .next { st with client := { st.client with BasaeURL := c2 }, cmdArgs := [] }
          else .next { st with exp := true }
      else .next { st with exp := true }
  else
    let st : ReplayState σ := { st with exp := false }
    if args.length < 2 ∧ args.length > 3 then
      .stop .fatal { st with log := st.log ++ [.formatError args] }
    else
      let body : Option Str := optBody st.cmdArgs
      match st.cmdArgs.get? 0, st.cmdArgs.get? 1 with
      | some method, some path =>
        let (r, c) := Client.Do lib st.client method path body
        let st : ReplayState σ := { st with client := c }
        match r.Err with
        | some e => failed cont { st with log := st.log ++ [.doError method path e] }
        | none =>
          match args.get? 0 with
          | none => .stop .panicked st
          | some a0 =>
            if a0 ≠ Itoa r.Status then
              failed cont
                { st with log := st.log ++ [.statusMismatch method path a0 r.Status r.Value] }
            else
              match args.get? 1 with
              | none => .stop .panicked st
              | some a1 =>
                match compareRes lib a1 r.Value with
                | some err =>
                  failed cont { st with log := st.log ++ [.bodyMismatch method path err] }
                | none =>
                  .next { st with log := st.log ++ [.passed method path r.Status r.Value] }
      | _, _ => .stop .panicked st

/-- One iteration of the loop of `replay` on the line `br.Text()`: the call of `safeSplit`,
with its log line when the quotes are mismatched, the `len(args) == 0` test, and the rest
of the loop body. -/
def replayLine {σ V : Type} (lib : Lib σ V) (cont : Bool) (st : ReplayState σ)
    (line : Str) : Step (ReplayState σ) :=
  let args := safeSplit line
  let st : ReplayState σ :=
    if quotesMismatched line then { st with log := st.log ++ [.mismatchedQuotes] } else st
  if args.length = 0 then .next st else replayArgs lib cont st args

/-- The loop of `replay` over the lines the scanner yields, from a given state.  The first
component is `none` when the loop ends because the input is exhausted. -/
def replayFrom {σ V : Type} (lib : Lib σ V) (cont : Bool) :
    ReplayState σ → List Str → Option Exit × ReplayState σ
  | st, [] => (none, st)
  | st, l :: ls =>
    match replayLine lib cont st l with
    | .next st1 => replayFrom lib cont st1 ls
    | .stop e st1 => (some e, st1)

/-- The function `replay`, run on the global `client`. -/
def replay {σ V : Type} (lib : Lib σ V) (cont : Bool) (client : Client σ)
    (lines : List Str) : Option Exit × ReplayState σ :=
  replayFrom lib cont { client := client, cmdArgs := [], exp := false, log := [] } lines

/-! ## The interactive loop of `main` (main.go) -/

/-- The constant `promptChar`. -/
def promptChar : Str := "➜ ".toList

/-- What the interactive loop changes: the global `client`, the prompt of the line
editor, and the output written so far. -/
structure Shell (σ : Type) where
  client : Client σ
  prompt : Str
  out : List LogEntry
deriving DecidableEq

/-- The label `invalidCommand` of `main`. -/
def invalidCommand {σ : Type} (sh : Shell σ) (args : List Str) : Shell σ :=
  { sh with out := sh.out ++ [.invalidArgs args], prompt := "[err] ".toList ++ promptChar }

/-- The function `doReq`, called with at least two arguments.  `headers` is the flag `-h`. -/
def doReq {σ V : Type} (lib : Lib σ V) (headers : Bool) (sh : Shell σ) (method path : Str)
    (args : List Str) : Shell σ :=
  let body : Option Str := optBody args
  let (r, c) := Client.Do lib sh.client method path body
  let sh : Shell σ := { sh with client := c }
  match r.Err with
  | some e => { sh with prompt := "[err] ".toList ++ promptChar, out := sh.out ++ [.requestError e] }
  | none =>
    let sh : Shell σ :=
      { sh with prompt := "[".toList ++ Itoa r.Status ++ "] ".toList ++ promptChar,
                out := sh.out ++ [.response (TrimSpace r.Value)] }
    if headers then { sh with out := sh.out ++ [.headers r.Header] } else sh

/-- The `case "GET", "POST", ...` arm of the switch in `main`, entered with the first
argument already replaced by `DELETE` when it was `DEL`.  After the length test `args[1]`
exists, so the last branch is never taken. -/
def verbArm {σ V : Type} (lib : Lib σ V) (headers : Bool) (sh : Shell σ) (method : Str)
    (args : List Str) : Shell σ :=
  if args.length < 2 ∨ args.length > 3 then invalidCommand sh args
  else
    match args.get? 1 with
    | some path => doReq lib headers sh method path args
    | none => invalidCommand sh args

/-- One iteration of the `for` loop of `main` on a line read without error: `.next` is
`continue` (also after `invalidCommand`), `.stop .returned` is the `return` of `exit`.
The call of `safeSplit` comes with its log line when the quotes are mismatched.  In the
`set` arm `args[2]` exists after the length test. -/
def mainLine {σ V : Type} (lib : Lib σ V) (headers : Bool) (sh : Shell σ) (line : Str) :
    Step (Shell σ) :=
  let args := safeSplit line
  let sh : Shell σ :=
    if quotesMismatched line then { sh with out := sh.out ++ [.mismatchedQuotes] } else sh
  match args.get? 0 with
  | none => .next (invalidCommand sh args)
  | some a0 =>
    if a0 = "set".toList then
      if args.length ≠ 3 ∨ args.get? 1 ≠ some "url".toList then .next (invalidCommand sh args)
      else
        match args.get? 2 with
        | some v => .next { sh with client := { sh.client with BasaeURL := v } }
        | none => .next (invalidCommand sh args)
    else if a0 = "get".toList then
      if args.length ≠ 2 then .next (invalidCommand sh args)
      else .next { sh with out := sh.out ++ [.baseURL sh.client.BasaeURL] }
    else if a0 = "reset".toList then
      .next { sh with client := Client.Reset lib sh.client, prompt := promptChar }
    else if a0 = "clear".toList then
      .next { sh with prompt := promptChar }
    else if a0 = "DEL".toList then
      .next (verbArm lib headers sh "DELETE".toList ("DELETE".toList :: args.drop 1))
    else if a0 = "GET".toList ∨ a0 = "POST".toList ∨ a0 = "PUT".toList ∨ a0 = "DELETE".toList
        ∨ a0 = "HEAD".toList ∨ a0 = "PATCH".toList then
      .next (verbArm lib headers sh a0 args)
    else if a0 = "exit".toList ∨ a0 = "quit".toList ∨ a0 = "q".toList then
      .stop .returned sh
    else .next (invalidCommand sh args)

/-- The predicate of the loop of `replay` that makes a tokenized line the pending request
directive: it is not empty, not a `//` comment, and does not take the `set url` branch
(its first token is not `set`, or a second token exists and is not `url`). -/
def requestDirective (args : List Str) : Bool :=
  match args with
  | [] => false
  | c0 :: rest =>
    !HasPrefix c0 "//".toList &&
      (c0 != "set".toList ||
        match rest with
        | c1 :: _ => c1 != "url".toList
        | [] => false)

/-- The token `t` is cut from a quoted region of the segments `segs`: a run of consecutive
segments, made of one or more segments `R` none of which ends with the quote character `q`
and of a closing segment `w ++ [q]`, whose text joined by spaces is `q`, a body, `q`; the
token lies inside that body. -/
def Region (segs : List Str) (t : Str) : Prop :=
  ∃ (A R C : List Str) (q : Char) (w body : Str),
    segs = A ++ (R ++ [w ++ [q]]) ++ C ∧ isQuote q = true ∧ R ≠ [] ∧
      (∀ x ∈ R, x.getLast? ≠ some q) ∧
      Join (R ++ [w ++ [q]]) = q :: (body ++ [q]) ∧ t <:+: body

/-! ## Stand-ins for the libraries, used in the closed examples -/

/-- `strings.Cut(s, c)` without the found flag: the text before the first `c` and the
text after it. -/
def cutAt (c : Char) (s : Str) : Str × Str :=
  (s.takeWhile (fun x => x != c), (s.dropWhile (fun x => x != c)).drop 1)

/-- A stand-in for `url.Parse` on plain URLs `scheme://host/path?query#fragment`: no
percent escapes, no user info, no bracketed host, lower-case scheme; anything else is
reported as an error.  It only instantiates `Lib.urlParse` in the closed examples; the
general theorems hold for every parser. -/
def plainParse (raw : Str) : Except Error URL :=
  if raw.any (fun c => decide (c.toNat < 0x20) || c.toNat == 0x7f || c == '%' || c == '@'
      || c == '[')
  then .error "unsupported".toList
  else
    let (u, frag) := cutAt '#' raw
    let (u, query) := cutAt '?' u
    let sch := u.takeWhile (fun c => c.isLower)
    let hasScheme := sch ≠ [] ∧ (u.drop sch.length).head? = some ':'
    let scheme := if hasScheme then sch else []
    let rest := if hasScheme then u.drop (sch.length + 1) else u
    if !HasPrefix rest "/".toList ∧ scheme ≠ [] then
      .ok { Scheme := scheme, Opaque := rest, User := none, Host := [], Path := [],
            RawPath := [], OmitHost := false, ForceQuery := false, RawQuery := query,
            Fragment := frag, RawFragment := [] }
    else if HasPrefix rest "//".toList ∧ (scheme ≠ [] ∨ !HasPrefix rest "///".toList) then
      .ok { Scheme := scheme, Opaque := [], User := none,
            Host := (rest.drop 2).takeWhile (fun c => c != '/'),
            Path := (rest.drop 2).dropWhile (fun c => c != '/'),
            RawPath := [], OmitHost := false, ForceQuery := false, RawQuery := query,
            Fragment := frag, RawFragment := [] }
    else
      .ok { Scheme := scheme, Opaque := [], User := none, Host := [], Path := rest,
            RawPath := [], OmitHost := false, ForceQuery := false, RawQuery := query,
            Fragment := frag, RawFragment := [] }

/-- The matching stand-in for `(*url.URL).String`. -/
def plainString (u : URL) : Str :=
  (if u.Scheme ≠ [] then u.Scheme ++ ":".toList else []) ++
  (if u.Opaque ≠ [] then u.Opaque
   else (if u.Scheme ≠ [] ∨ u.Host ≠ [] then "//".toList ++ u.Host else []) ++ u.Path) ++
  (if u.RawQuery ≠ [] then '?' :: u.RawQuery else []) ++
  (if u.Fragment ≠ [] then '#' :: u.Fragment else [])

/-- Decoded JSON values of the stand-in decoder: scalars only. -/
inductive JVal where
  | null
  | bool (b : Bool)
  | num (n : Int)
  | str (s : Str)
deriving DecidableEq

/-- Lexical tokens of the stand-in decoder. -/
inductive Tok where
  | lbrace
  | rbrace
  | colon
  | comma
  | str (s : Str)
  | word (s : Str)
  | bad
deriving DecidableEq

/-- The punctuation of a JSON object. -/
def punct (c : Char) : Option Tok :=
  if c = Char.ofNat 123 then some .lbrace
  else if c = Char.ofNat 125 then some .rbrace
  else if c = ':' then some .colon
  else if c = ',' then some .comma
  else none

/-- JSON whitespace. -/
def jsonSpace (c : Char) : Bool := c == ' ' || c == '\t' || c == '\n' || c == '\r'

/-- The lexer of the stand-in decoder.  The first argument is the token being read, if any:
`(true, acc)` inside a string (no escapes), `(false, acc)` inside a bare word. -/
def lexJSON : Option (Bool × Str) → Str → List Tok
  | none, [] => []
  | some (true, _), [] => [.bad]
  | some (false, acc), [] => [.word acc]
  | none, c :: cs =>
    if jsonSpace c then lexJSON none cs
    else if c = dquote then lexJSON (some (true, [])) cs
    else match punct c with
      | some t => t :: lexJSON none cs
      | none => lexJSON (some (false, [c])) cs
  | some (true, acc), c :: cs =>
    if c = dquote then .str acc :: lexJSON none cs
    else if c = Char.ofNat 92 then [.bad]
    else lexJSON (some (true, acc ++ [c])) cs
  | some (false, acc), c :: cs =>
    if jsonSpace c then .word acc :: lexJSON none cs
    else if c = dquote then [.bad]
    else match punct c with
      | some t => .word acc :: t :: lexJSON none cs
      | none => lexJSON (some (false, acc ++ [c])) cs

/-- The value of a run of decimal digits. -/
def digitsVal (w : Str) : Option Nat :=
  if w ≠ [] ∧ w.all Char.isDigit then some (w.foldl (fun n c => 10 * n + (c.toNat - 48)) 0)
  else none

/-- A scalar JSON value: a string, `true`, `false`, `null` or an integer. -/
def parseValue : Tok → Option JVal
  | .str s => some (.str s)
  | .word w =>
    if w = "true".toList then some (.bool true)
    else if w = "false".toList then some (.bool false)
    else if w = "null".toList then some .null
    else match w with
      | '-' :: ds => (digitsVal ds).map (fun n => .num (-(n : Int)))
      | _ => (digitsVal w).map (fun n => .num (n : Int))
  | _ => none

/-- The members of an object after the opening brace; a repeated key keeps the last value,
as assignment into a Go map does. -/
def parseMembers : List Tok → GoMap JVal → Except Error (GoMap JVal)
  | [.str k, .colon, v, .rbrace], m =>
    match parseValue v with
    | some x => .ok (m.insert k x)
    | none => .error "invalid value".toList
  | .str k :: .colon :: v :: .comma :: rest, m =>
    match parseValue v with
    | some x => parseMembers rest (m.insert k x)
    | none => .error "invalid value".toList
  | _, _ => .error "invalid object".toList

/-- A stand-in for `json.Unmarshal` into a nil `map[string]interface{}`, for flat objects
with scalar values. -/
def plainUnmarshal (s : Str) : Except Error (Option (GoMap JVal)) :=
  match lexJSON none s with
  | [.word w] =>
    if w = "null".toList then .ok none else .error "cannot unmarshal into map".toList
  | [.lbrace, .rbrace] => .ok (some ∅)
  | .lbrace :: rest =>
    match parseMembers rest ∅ with
    | .ok m => .ok (some m)
    | .error e => .error e
  | _ => .error "invalid JSON".toList

/-- The state behind the stand-in HTTP client: the cookies of the jar and the requests
that reached the server. -/
structure World where
  cookies : List Str
  sent : List Request
deriving DecidableEq

/-- A library instance whose server answers every request with the given status and body,
sets one cookie, and records the request. -/
def demoLib (status : Int) (body : Str) : Lib World JVal where
  urlParse := plainParse
  urlString := plainString
  newRequest := fun _ _ => none
  roundTrip := fun w req =>
    (.ok { StatusCode := status, Header := [], Body := body, ReadErr := none },
     { cookies := w.cookies ++ ["sid".toList], sent := w.sent ++ [req] })
  newJar := fun w => { w with cookies := [] }
  unmarshal := plainUnmarshal
  valueEq := fun a b => decide (a = b)

/-- A client for the closed examples: base URL `http://localhost:8080`, empty jar. -/
def demoClient : Client World :=
  { HTTPClient := { cookies := [], sent := [] }, BasaeURL := "http://localhost:8080".toList,
    ContentType := "application/json".toList }

/-! ## Lemmas on `Split`, `Join` and the trimming functions -/

theorem Split_ne_nil (s : Str) : Split s ≠ [] := by
  cases s with
  | nil => simp [Split]
  | cons c cs =>
    simp only [Split]
    split_ifs
    · simp
    · split <;> simp

theorem Join_Split (s : Str) : Join (Split s) = s := by
  induction s with
  | nil => rfl
  | cons c cs ih =>
    simp only [Split]
    split_ifs with hc
    · cases h : Split cs with
      | nil => exact absurd h (Split_ne_nil cs)
      | cons a t => rw [h] at ih; simp [Join, ih, hc]
    · cases h : Split cs with
      | nil => exact absurd h (Split_ne_nil cs)
      | cons a t =>
        rw [h] at ih
        cases t with
        | nil => simpa [Join] using ih
        | cons b t => simp [Join] at ih ⊢; rw [← ih]

theorem mem_Split_nospace (s : Str) : ∀ seg ∈ Split s, ' ' ∉ seg := by
  induction s with
  | nil => simp [Split]
  | cons c cs ih =>
    simp only [Split]
    split_ifs with hc
    · intro seg hseg
      rcases List.mem_cons.1 hseg with rfl | h
      · simp
      · exact ih seg h
    · cases h : Split cs with
      | nil => exact absurd h (Split_ne_nil cs)
      | cons a t =>
        rw [h] at ih
        intro seg hseg
        rcases List.mem_cons.1 hseg with rfl | h'
        · have := ih a (by simp)
          simp [this, Ne.symm hc]
        · exact ih seg (by simp [h'])

theorem mem_of_mem_Split (s : Str) : ∀ seg ∈ Split s, ∀ c ∈ seg, c ∈ s := by
  induction s with
  | nil => simp [Split]
  | cons x xs ih =>
    simp only [Split]
    split_ifs with hc
    · intro seg hseg c hcs
      rcases List.mem_cons.1 hseg with rfl | h
      · simp at hcs
      · exact List.mem_cons_of_mem _ (ih seg h c hcs)
    · cases h : Split xs with
      | nil => exact absurd h (Split_ne_nil xs)
      | cons a t =>
        rw [h] at ih
        intro seg hseg c hcs
        rcases List.mem_cons.1 hseg with rfl | h'
        · rcases List.mem_cons.1 hcs with rfl | h2
          · simp
          · exact List.mem_cons_of_mem _ (ih a (by simp) c h2)
        · exact List.mem_cons_of_mem _ (ih seg (by simp [h']) c hcs)


theorem Split_nospace (s : Str) (h : ' ' ∉ s) : Split s = [s] := by
  induction s with
  | nil => rfl
  | cons c cs ih =>
    have hc : c ≠ ' ' := fun e => h (by simp [e])
    have hcs : ' ' ∉ cs := fun e => h (by simp [e])
    simp [Split, hc, ih hcs]

theorem Split_append_space (p r : Str) (h : ' ' ∉ p) :
    Split (p ++ ' ' :: r) = p :: Split r := by
  induction p with
  | nil => simp [Split]
  | cons c cs ih =>
    have hc : c ≠ ' ' := fun e => h (by simp [e])
    have hcs : ' ' ∉ cs := fun e => h (by simp [e])
    simp [Split, hc, ih hcs]

theorem isQuote_ne_space {q : Char} (hq : isQuote q = true) : q ≠ ' ' := by
  rintro rfl
  revert hq
  decide

theorem HasSuffix_single (s : Str) (q : Char) :
    HasSuffix s [q] = true ↔ s.getLast? = some q := by
  unfold HasSuffix
  rw [List.isSuffixOf_iff_suffix]
  rw [List.getLast?_eq_some_iff]
  constructor
  · rintro ⟨t, rfl⟩
    exact ⟨t, rfl⟩
  · rintro ⟨t, rfl⟩
    exact ⟨t, rfl⟩

theorem HasSuffix_concat (w : Str) (q : Char) : HasSuffix (w ++ [q]) [q] = true := by
  rw [HasSuffix_single]; simp

theorem HasSuffix_of_not_mem (s : Str) (q : Char) (h : q ∉ s) : HasSuffix s [q] = false := by
  rw [Bool.eq_false_iff]
  intro h1
  rw [HasSuffix_single] at h1
  exact h (List.mem_of_getLast?_eq_some h1)

theorem HasPrefix_cons (q : Char) (s : Str) (x : Char) :
    HasPrefix (q :: s) [x] = (x == q) := by
  simp only [HasPrefix, List.isPrefixOf, Bool.and_true]

theorem TrimPrefix_cons (q : Char) (s : Str) : TrimPrefix (q :: s) [q] = s := by
  simp [TrimPrefix, HasPrefix_cons]

theorem quoteTest_cons (q : Char) (s : Str) :
    (HasPrefix (q :: s) [backtick] || HasPrefix (q :: s) [squote] || HasPrefix (q :: s) [dquote])
      = isQuote q := by
  simp only [HasPrefix_cons, isQuote]

theorem splitStep_open (st : SplitState) (q : Char) (r : Str) (hst : st.inquote = [])
    (hq : isQuote q = true) :
    splitStep st (q :: r) =
      if HasSuffix (q :: r) [q] then addRes { st with inquote := [q] } (q :: r)
      else { st with inquote := [q], block := r ++ [' '] } := by
  simp only [splitStep, hst, if_true]
  rw [quoteTest_cons]
  simp [hq, TrimPrefix_cons]

theorem Trim_concat (c : Str) (q : Char) (h : q ∉ c) : Trim (c ++ [q]) [q] = c := by
  unfold Trim
  cases c with
  | nil => simp [List.rdropWhile]
  | cons x xs =>
    have hx : x ≠ q := fun e => h (by simp [e])
    have h1 : List.dropWhile (fun c => decide (c ∈ [q])) (x :: xs ++ [q]) = (x :: xs) ++ [q] := by
      simp [List.dropWhile, hx]
    rw [h1, List.rdropWhile_concat_pos _ _ _ (by simp)]
    rw [List.rdropWhile_eq_self_iff]
    intro hl
    simp only [List.mem_singleton, decide_eq_true_eq]
    intro e
    exact h (e ▸ List.getLast_mem hl)

theorem Trim_cons_concat (c : Str) (q : Char) (h : q ∉ c) :
    Trim (q :: c ++ [q]) [q] = c := by
  have : Trim (q :: c ++ [q]) [q] = Trim (c ++ [q]) [q] := by
    unfold Trim
    simp [List.dropWhile]
  rw [this, Trim_concat c q h]

theorem mem_dropWhile_of_not {α} (p : α → Bool) (l : List α) (x : α) (hx : x ∈ l)
    (hp : p x = false) : x ∈ l.dropWhile p := by
  induction l with
  | nil => simp at hx
  | cons a t ih =>
    by_cases ha : p a = true
    · rw [List.dropWhile_cons_of_pos ha]
      rcases List.mem_cons.1 hx with rfl | h
      · simp [hp] at ha
      · exact ih h
    · rw [List.dropWhile_cons_of_neg ha]; exact hx

theorem TrimSpace_ne_nil (c : Str) (h : ∃ x ∈ c, isSpace x = false) : TrimSpace c ≠ [] := by
  obtain ⟨x, hx, hsp⟩ := h
  unfold TrimSpace List.rdropWhile
  intro h0
  have h1 : (List.dropWhile isSpace (List.dropWhile isSpace c).reverse) = [] := by
    simpa using h0
  rw [List.dropWhile_eq_nil_iff] at h1
  have := h1 x (by simpa using mem_dropWhile_of_not isSpace c x hx hsp)
  simp [hsp] at this

theorem addRes_res (st : SplitState) (s : Str) :
    addRes st s = { res := if TrimSpace (Trim s st.inquote) ≠ [] then
        st.res ++ [TrimSpace (Trim s st.inquote)] else st.res, inquote := [], block := [] } := rfl

/-- Inside a region opened by `q`, text without `q` followed by `q` is appended to the
block whole and closes the region. -/
theorem foldl_inquote (q : Char) (hq : q ≠ ' ') : ∀ (c p : Str) (st : SplitState),
    st.inquote = [q] → q ∉ c → q ∉ p → ' ' ∉ p →
    (Split (p ++ c ++ [q])).foldl splitStep st = addRes st (st.block ++ p ++ c ++ [q]) := by
  intro c
  induction c with
  | nil =>
    intro p st hst _ hp hsp
    have : ' ' ∉ p ++ [q] := by simp [hsp, Ne.symm hq]
    simp only [List.append_nil]
    rw [Split_nospace _ this]
    simp only [List.foldl_cons, List.foldl_nil, splitStep, hst]
    simp [HasSuffix_concat, List.append_assoc]
  | cons x xs ih =>
    intro p st hst hc hp hsp
    have hxs : q ∉ xs := fun e => hc (by simp [e])
    by_cases hx : x = ' '
    · subst hx
      have e1 : p ++ ' ' :: xs ++ [q] = p ++ ' ' :: (([] : Str) ++ xs ++ [q]) := by simp
      rw [e1, Split_append_space _ _ hsp, List.foldl_cons]
      have e2 : splitStep st p = { st with block := st.block ++ p ++ [' '] } := by
        simp [splitStep, hst, HasSuffix_of_not_mem p q hp]
      rw [e2]
      have := ih [] { st with block := st.block ++ p ++ [' '] } hst hxs (by simp) (by simp)
      rw [this]
      simp [addRes_res, List.append_assoc]
    · have e1 : p ++ x :: xs ++ [q] = (p ++ [x]) ++ xs ++ [q] := by simp
      have hxq : q ≠ x := fun e => hc (by simp [e])
      rw [e1, ih (p ++ [x]) st hst hxs (by simp [hp, hxq]) (by simp [hsp, Ne.symm hx])]
      simp [List.append_assoc]

theorem exists_first_space (c : Str) :
    ' ' ∉ c ∨ ∃ a b, c = a ++ ' ' :: b ∧ ' ' ∉ a := by
  induction c with
  | nil => left; simp
  | cons x xs ih =>
    by_cases hx : x = ' '
    · right; exact ⟨[], xs, by simp [hx], by simp⟩
    · rcases ih with h | ⟨a, b, rfl, ha⟩
      · left; simp [h, Ne.symm hx]
      · right; exact ⟨x :: a, b, by simp, by simp [ha, Ne.symm hx]⟩

/-- C1 (amended): for a quote character `q` and a text `c` that is not blank, contains no
`q` and does not begin with a space, `safeSplit` applied to `q + c + q` returns exactly one
token, which is `c` with leading and trailing whitespace trimmed (so `c` itself when `c`
neither begins nor ends with whitespace); spaces inside the quoted text stay in the token. -/
theorem safeSplit_quoted (q : Char) (c : Str) (hq : isQuote q = true)
    (hblank : ∃ x ∈ c, isSpace x = false) (hno : q ∉ c) (hhead : c.head? ≠ some ' ') :
    safeSplit (q :: c ++ [q]) = [TrimSpace c] := by
  have hqs := isQuote_ne_space hq
  have hne := TrimSpace_ne_nil c hblank
  unfold safeSplit
  rcases exists_first_space c with hsp | ⟨a, b, rfl, ha⟩
  · have : ' ' ∉ q :: c ++ [q] := by simp [hsp, Ne.symm hqs]
    rw [Split_nospace _ this]
    have e : splitStep splitInit (q :: c ++ [q]) =
        { res := [TrimSpace c], inquote := [], block := [] } := by
      have hs : HasSuffix (q :: (c ++ [q])) [q] = true := HasSuffix_concat (q :: c) q
      rw [List.cons_append, splitStep_open _ _ _ rfl hq, if_pos hs, addRes_res]
      have := Trim_cons_concat c q hno
      simp only [List.cons_append] at this
      simp [this, hne, splitInit]
    simp only [List.foldl_cons, List.foldl_nil, e]
    simp
  · have ha0 : a ≠ [] := by
      rintro rfl
      simp at hhead
    have hqa : q ∉ a := fun e => hno (by simp [e])
    have hqb : q ∉ b := fun e => hno (by simp [e])
    have e0 : q :: (a ++ ' ' :: b) ++ [q] = (q :: a) ++ ' ' :: (([] : Str) ++ b ++ [q]) := by simp
    have hqa2 : ' ' ∉ q :: a := by simp [ha, Ne.symm hqs]
    rw [e0, Split_append_space _ _ hqa2, List.foldl_cons]
    have e : splitStep splitInit (q :: a) =
        { res := [], inquote := [q], block := a ++ [' '] } := by
      have hs : HasSuffix (q :: a) [q] = false := by
        rw [Bool.eq_false_iff, Ne, HasSuffix_single]
        intro h
        cases a with
        | nil => exact ha0 rfl
        | cons y ys =>
          rw [List.getLast?_cons_cons] at h
          exact hqa (List.mem_of_getLast?_eq_some h)
      rw [splitStep_open _ _ _ rfl hq]
      simp [hs, splitInit]
    rw [e, foldl_inquote q hqs b [] _ rfl hqb (by simp) (by simp), addRes_res]
    have e3 : a ++ [' '] ++ [] ++ b ++ [q] = (a ++ ' ' :: b) ++ [q] := by simp
    simp only [e3, Trim_concat _ q hno]
    simp [hne]

/-- Witness for C1 (amended): the quoted text `"hello world"`. -/
theorem safeSplit_quoted_witness :
    safeSplit (dquote :: "hello world".toList ++ [dquote]) = [TrimSpace "hello world".toList]
      ∧ TrimSpace "hello world".toList = "hello world".toList :=
  ⟨safeSplit_quoted dquote "hello world".toList (by decide) ⟨'h', by decide, by decide⟩
    (by decide) (by decide), by decide⟩

/-- C1 counterexample: the quoted text `"a "` is not blank and holds no double quote, yet
the token returned is `a`, not `a ` (the token is trimmed). -/
theorem safeSplit_quoted_counterexample :
    (∃ x ∈ "a ".toList, isSpace x = false) ∧ dquote ∉ "a ".toList ∧
      safeSplit (dquote :: "a ".toList ++ [dquote]) = ["a".toList] ∧
      safeSplit (dquote :: "a ".toList ++ [dquote]) ≠ ["a ".toList] := by
  refine ⟨⟨'a', by decide, by decide⟩, by decide, by decide, by decide⟩

/-- A quoted text that begins with a space: the first segment of `" a"` is a lone quote
character, which opens and closes a region at once, and the second segment `a"` is
returned with its quote character. -/
theorem safeSplit_lone_quote :
    safeSplit (dquote :: " a".toList ++ [dquote]) = ['a', dquote] :: [] := by
  decide

/-- The tokenizer scenario of the specification. -/
theorem safeSplit_scenario :
    safeSplit "GET /users/1 \"hello world\"".toList
      = ["GET".toList, "/users/1".toList, "hello world".toList] := by
  decide

theorem foldl_stays_open (q : Char) : ∀ (post : List Str) (st : SplitState),
    st.inquote = [q] → (∀ t ∈ post, t.getLast? ≠ some q) →
    (post.foldl splitStep st).inquote = [q] := by
  intro post
  induction post with
  | nil => intro st h _; simpa using h
  | cons t ts ih =>
    intro st h hpost
    have ht : HasSuffix t [q] = false := by
      rw [Bool.eq_false_iff, Ne, HasSuffix_single]
      exact hpost t (by simp)
    rw [List.foldl_cons]
    apply ih
    · simp [splitStep, h, ht]
    · intro u hu
      exact hpost u (by simp [hu])

/-- C2: if some segment of the line, read while no quoted region is open, begins with a
quote character `q` and does not end with it, and no later segment ends with `q`, then
`safeSplit` returns no token at all, whatever was completed before. -/
theorem safeSplit_unbalanced (s : Str) (pre post : List Str) (seg : Str) (q : Char)
    (hsplit : Split s = pre ++ seg :: post)
    (hclosed : (pre.foldl splitStep splitInit).inquote = [])
    (hq : isQuote q = true)
    (hbegin : seg.head? = some q)
    (hend : seg.getLast? ≠ some q)
    (hlater : ∀ t ∈ post, t.getLast? ≠ some q) :
    safeSplit s = [] := by
  obtain ⟨r, rfl⟩ : ∃ r, seg = q :: r := by
    cases seg with
    | nil => simp at hbegin
    | cons x r => simp at hbegin; exact ⟨r, by rw [hbegin]⟩
  have hs : HasSuffix (q :: r) [q] = false := by
    rw [Bool.eq_false_iff, Ne, HasSuffix_single]
    exact hend
  have hopen : (splitStep (pre.foldl splitStep splitInit) (q :: r)).inquote = [q] := by
    rw [splitStep_open _ q r hclosed hq]
    simp [hs]
  have hfin := foldl_stays_open q post _ hopen hlater
  unfold safeSplit
  rw [hsplit, List.foldl_append, List.foldl_cons]
  simp [hfin]

/-- Under the hypotheses of `safeSplit_unbalanced` the `mismatched quotes` line is logged. -/
theorem quotesMismatched_unbalanced (s : Str) (pre post : List Str) (seg : Str) (q : Char)
    (hsplit : Split s = pre ++ seg :: post)
    (hclosed : (pre.foldl splitStep splitInit).inquote = [])
    (hq : isQuote q = true)
    (hbegin : seg.head? = some q)
    (hend : seg.getLast? ≠ some q)
    (hlater : ∀ t ∈ post, t.getLast? ≠ some q) :
    quotesMismatched s = true := by
  obtain ⟨r, rfl⟩ : ∃ r, seg = q :: r := by
    cases seg with
    | nil => simp at hbegin
    | cons x r => simp at hbegin; exact ⟨r, by rw [hbegin]⟩
  have hs : HasSuffix (q :: r) [q] = false := by
    rw [Bool.eq_false_iff, Ne, HasSuffix_single]
    exact hend
  have hopen : (splitStep (pre.foldl splitStep splitInit) (q :: r)).inquote = [q] := by
    rw [splitStep_open _ q r hclosed hq]
    simp [hs]
  have hfin := foldl_stays_open q post _ hopen hlater
  unfold quotesMismatched
  rw [hsplit, List.foldl_append, List.foldl_cons]
  simp [hfin]

/-- Witness for C2: the line `GET "abc def`. -/
theorem safeSplit_unbalanced_witness :
    safeSplit "GET \"abc def".toList = [] :=
  safeSplit_unbalanced "GET \"abc def".toList ["GET".toList] ["def".toList] "\"abc".toList dquote
    (by decide) (by decide) (by decide) (by decide) (by decide) (by decide)

theorem Region_append {segs : List Str} {t : Str} (more : List Str) (h : Region segs t) :
    Region (segs ++ more) t := by
  obtain ⟨A, R, C, q, w, body, rfl, hq, hR, hno, hj, ht⟩ := h
  exact ⟨A, R, C ++ more, q, w, body, by simp, hq, hR, hno, hj, ht⟩

theorem TrimSpace_within (x : Str) : TrimSpace x <:+: x :=
  (List.rdropWhile_prefix isSpace _).isInfix.trans (List.dropWhile_suffix isSpace).isInfix

theorem Trim_within (x cs : Str) : Trim x cs <:+: x :=
  (List.rdropWhile_prefix _ _).isInfix.trans (List.dropWhile_suffix _).isInfix

theorem Trim_concat_within (body : Str) (q : Char) : Trim (body ++ [q]) [q] <:+: body := by
  unfold Trim
  obtain ⟨pre, hpre⟩ := List.dropWhile_suffix (fun c => decide (c ∈ [q])) (l := body ++ [q])
  rcases List.eq_nil_or_concat (List.dropWhile (fun c => decide (c ∈ [q])) (body ++ [q]))
    with h | ⟨d, x, h⟩
  · rw [h]; exact List.nil_infix
  · rw [h, List.concat_eq_append] at hpre ⊢
    have hx : pre ++ d = body ∧ x = q := by
      have h2 : (pre ++ d) ++ [x] = body ++ [q] := by rw [List.append_assoc]; exact hpre
      have := List.append_inj' h2 rfl
      exact ⟨this.1, by simpa using this.2⟩
    rw [hx.2, List.rdropWhile_concat_pos _ _ _ (by simp)]
    rw [← hx.1]
    exact (List.rdropWhile_prefix _ _).isInfix.trans (List.suffix_append pre d).isInfix

theorem Join_concat (R : List Str) (i : Str) (h : R ≠ []) :
    Join (R ++ [i]) = Join R ++ ' ' :: i := by
  induction R with
  | nil => exact absurd rfl h
  | cons a t ih =>
    cases t with
    | nil => simp [Join]
    | cons b t =>
      have := ih (by simp)
      show a ++ ' ' :: Join ((b :: t) ++ [i]) = (a ++ ' ' :: Join (b :: t)) ++ ' ' :: i
      rw [this]; simp

theorem not_mem_of_within {t x : Str} {c : Char} (h : t <:+: x) (hx : c ∉ x) : c ∉ t :=
  fun e => hx (h.subset e)

theorem addRes_mem (st : SplitState) (s t : Str) (h : t ∈ (addRes st s).res) :
    t ∈ st.res ∨ (t = TrimSpace (Trim s st.inquote) ∧ t ≠ []) := by
  rw [addRes_res] at h
  simp only at h
  split_ifs at h with h0
  · rcases List.mem_append.1 h with h1 | h1
    · exact Or.inl h1
    · right
      have : t = TrimSpace (Trim s st.inquote) := by simpa using h1
      exact ⟨this, this ▸ h0⟩
  · exact Or.inl h

/-- The loop invariant behind `safeSplit_space_in_region`. -/
theorem foldl_region : ∀ (segs done : List Str) (st : SplitState),
    (∀ seg ∈ segs, ' ' ∉ seg) →
    (∀ t ∈ st.res, ' ' ∈ t → Region done t) →
    (st.inquote = [] ∨ ∃ (q : Char) (A R : List Str), isQuote q = true ∧ st.inquote = [q] ∧
        done = A ++ R ∧ R ≠ [] ∧ (∀ x ∈ R, x.getLast? ≠ some q) ∧
        Join R ++ [' '] = q :: st.block) →
    ∀ t ∈ (segs.foldl splitStep st).res, ' ' ∈ t → Region (done ++ segs) t := by
  intro segs
  induction segs with
  | nil => intro done st _ hres _; simpa using hres
  | cons i rest ih =>
    intro done st hsegs hres hq
    have hi : ' ' ∉ i := hsegs i (by simp)
    have hrest : ∀ seg ∈ rest, ' ' ∉ seg := fun seg h => hsegs seg (by simp [h])
    have e : done ++ i :: rest = (done ++ [i]) ++ rest := by simp
    rw [List.foldl_cons, e]
    -- tokens cut from the single segment `i` have no space
    have hfresh : ∀ (s0 : SplitState) (t : Str), s0.res = st.res →
        t ∈ (addRes s0 i).res → ' ' ∈ t → Region (done ++ [i]) t := by
      intro s0 t hs0 ht hsp
      rcases addRes_mem s0 i t ht with h | ⟨h, _⟩
      · exact Region_append _ (hres t (hs0 ▸ h) hsp)
      · exact absurd hsp
          (not_mem_of_within (h ▸ (TrimSpace_within _).trans (Trim_within _ _)) hi)
    rcases hq with hq | ⟨q, A, R, hqq, hin, hdone, hR, hno, hjoin⟩
    · -- no region is open
      by_cases hpre : (HasPrefix i [backtick] || HasPrefix i [squote] || HasPrefix i [dquote]) = true
      · obtain ⟨q, r, rfl⟩ : ∃ q r, i = q :: r := by
          cases i with
          | nil => simp [HasPrefix, List.isPrefixOf] at hpre
          | cons q r => exact ⟨q, r, rfl⟩
        rw [quoteTest_cons] at hpre
        rw [splitStep_open st q r hq hpre]
        by_cases hs : HasSuffix (q :: r) [q] = true
        · rw [if_pos hs]
          apply ih _ _ hrest
          · intro t ht hsp
            exact hfresh { st with inquote := [q] } t rfl ht hsp
          · left; rfl
        · rw [if_neg hs]
          apply ih _ _ hrest
          · intro t ht hsp
            exact Region_append _ (hres t ht hsp)
          · right
            refine ⟨q, done, [q :: r], hpre, rfl, rfl, by simp, ?_, by simp [Join]⟩
            intro x hx
            rw [List.mem_singleton] at hx
            rw [hx]
            exact fun h => hs ((HasSuffix_single _ q).2 h)
      · have e2 : splitStep st i = addRes st i := by
          simp only [splitStep, hq, if_true]
          rw [if_neg hpre]
        rw [e2]
        apply ih _ _ hrest
        · intro t ht hsp
          exact hfresh _ t rfl ht hsp
        · left; rfl
    · -- a region opened by `q` is open
      have hne : st.inquote ≠ [] := by simp [hin]
      by_cases hs : HasSuffix i [q] = true
      · have e2 : splitStep st i = addRes st (st.block ++ i) := by
          simp [splitStep, hin, hs]
        rw [e2]
        apply ih _ _ hrest
        · intro t ht hsp
          rcases addRes_mem st _ t ht with h | ⟨h, _⟩
          · exact Region_append _ (hres t h hsp)
          · obtain ⟨w, rfl⟩ : ∃ w, i = w ++ [q] := by
              rw [HasSuffix_single, List.getLast?_eq_some_iff] at hs
              exact hs
            refine ⟨A, R, [], q, w, st.block ++ w, by simp [hdone], hqq, hR, hno, ?_, ?_⟩
            · rw [Join_concat R _ hR]
              have : Join R ++ ' ' :: (w ++ [q]) = (Join R ++ [' ']) ++ (w ++ [q]) := by simp
              rw [this, hjoin]; simp
            · rw [h, hin, ← List.append_assoc]
              exact (TrimSpace_within _).trans (Trim_concat_within _ q)
        · left; rfl
      · have e2 : splitStep st i = { st with block := st.block ++ i ++ [' '] } := by
          simp [splitStep, hin, hs]
        rw [e2]
        apply ih _ _ hrest
        · intro t ht hsp
          exact Region_append _ (hres t ht hsp)
        · right
          refine ⟨q, A, R ++ [i], hqq, hin, by simp [hdone], by simp, ?_, ?_⟩
          · intro x hx
            rcases List.mem_append.1 hx with hx | hx
            · exact hno x hx
            · rw [List.mem_singleton] at hx
              rw [hx]
              exact fun h => hs ((HasSuffix_single _ q).2 h)
          rw [Join_concat R _ hR]
          have : Join R ++ ' ' :: i ++ [' '] = (Join R ++ [' ']) ++ (i ++ [' ']) := by simp
          rw [this, hjoin]; simp

theorem mem_Join (B : List Str) (c : Char) (h : c ∈ Join B) : c = ' ' ∨ ∃ b ∈ B, c ∈ b := by
  induction B with
  | nil => simp [Join] at h
  | cons a t ih =>
    cases t with
    | nil => right; exact ⟨a, by simp, by simpa [Join] using h⟩
    | cons b t =>
      simp only [Join, List.mem_append, List.mem_cons] at h
      rcases h with h | h | h
      · right; exact ⟨a, by simp, h⟩
      · left; exact h
      · rcases ih (by simpa [Join] using h) with h1 | ⟨x, hx, hc⟩
        · left; exact h1
        · right; exact ⟨x, by simp [hx], hc⟩

theorem splitStep_cases (st : SplitState) (i : Str) :
    (∃ s0 s, s0.res = st.res ∧ splitStep st i = addRes s0 s) ∨ (splitStep st i).res = st.res := by
  simp only [splitStep]
  split_ifs
  · exact Or.inl ⟨{ st with inquote := i.take 1 }, i, rfl, rfl⟩
  · exact Or.inr rfl
  · exact Or.inl ⟨st, i, rfl, rfl⟩
  · exact Or.inr rfl
  · exact Or.inl ⟨st, st.block ++ i, rfl, rfl⟩

theorem splitStep_mem (st : SplitState) (i t : Str) (h : t ∈ (splitStep st i).res) :
    t ∈ st.res ∨ (t ≠ [] ∧ ∃ x, t = TrimSpace x) := by
  have hadd : ∀ (s0 : SplitState) (s : Str), s0.res = st.res → t ∈ (addRes s0 s).res →
      t ∈ st.res ∨ (t ≠ [] ∧ ∃ x, t = TrimSpace x) := by
    intro s0 s hs0 ht
    rcases addRes_mem s0 s t ht with h1 | ⟨h1, h2⟩
    · exact Or.inl (hs0 ▸ h1)
    · exact Or.inr ⟨h2, _, h1⟩
  rcases splitStep_cases st i with ⟨s0, s, h0, h1⟩ | h1
  · rw [h1] at h; exact hadd s0 s h0 h
  · rw [h1] at h; exact Or.inl h

/-- Every token `addRes` appends is non-empty and trimmed. -/
theorem foldl_trimmed : ∀ (segs : List Str) (st : SplitState),
    (∀ t ∈ st.res, t ≠ [] ∧ ∃ x, t = TrimSpace x) →
    ∀ t ∈ (segs.foldl splitStep st).res, t ≠ [] ∧ ∃ x, t = TrimSpace x := by
  intro segs
  induction segs with
  | nil => intro st h; simpa using h
  | cons i rest ih =>
    intro st h
    rw [List.foldl_cons]
    apply ih
    intro t ht
    rcases splitStep_mem st i t ht with h1 | h1
    · exact h t h1
    · exact h1

theorem TrimSpace_idem (x : Str) : TrimSpace (TrimSpace x) = TrimSpace x := by
  unfold TrimSpace
  have h1 : List.dropWhile isSpace (List.rdropWhile isSpace (List.dropWhile isSpace x))
      = List.rdropWhile isSpace (List.dropWhile isSpace x) := by
    generalize hd : List.dropWhile isSpace x = d
    have hd0 : ∀ hl : 0 < d.length, ¬ isSpace (d.get ⟨0, hl⟩) = true := by
      have : List.dropWhile isSpace d = d := by rw [← hd, List.dropWhile_idempotent]
      exact List.dropWhile_eq_self_iff.1 this
    rw [List.dropWhile_eq_self_iff]
    intro hl
    have hdl : 0 < d.length :=
      lt_of_lt_of_le hl (List.rdropWhile_prefix isSpace d).length_le
    have := hd0 hdl
    have e : (List.rdropWhile isSpace d).get ⟨0, hl⟩ = d.get ⟨0, hdl⟩ := by
      simp only [List.get_eq_getElem]
      exact (List.rdropWhile_prefix isSpace d).getElem hl
    rw [e]; exact this
  rw [h1, List.rdropWhile_idempotent]

/-- C9 (amended): every token returned by `safeSplit` is non-empty and neither begins nor
ends with whitespace; a token that contains a space character (U+0020) is cut from a quoted
region (a run of consecutive segments beginning and ending with the same quote character);
and for a line without any quote character no token contains a space character. -/
theorem safeSplit_space_in_region (s t : Str) (ht : t ∈ safeSplit s) :
    (t ≠ [] ∧ TrimSpace t = t) ∧
    (' ' ∈ t → Region (Split s) t) ∧
    ((∀ c ∈ s, isQuote c = false) → ' ' ∉ t) := by
  have hmem : t ∈ ((Split s).foldl splitStep splitInit).res := by
    unfold safeSplit at ht
    simp only at ht
    split_ifs at ht with h
    · simp at ht
    · exact ht
  have hreg : ' ' ∈ t → Region (Split s) t := by
    intro hsp
    have := foldl_region (Split s) [] splitInit (mem_Split_nospace s)
      (by simp [splitInit]) (Or.inl rfl) t hmem hsp
    simpa using this
  refine ⟨?_, hreg, ?_⟩
  · obtain ⟨h0, x, hx⟩ := foldl_trimmed (Split s) splitInit (by simp [splitInit]) t hmem
    exact ⟨h0, by rw [hx, TrimSpace_idem]⟩
  · intro hnq hsp
    obtain ⟨A, R, C, q, w, body, hsplit, hq, _, _, hj, _⟩ := hreg hsp
    have hqJ : q ∈ Join (R ++ [w ++ [q]]) := by rw [hj]; simp
    rcases mem_Join _ q hqJ with h | ⟨b, hb, hqb⟩
    · exact isQuote_ne_space hq h
    · have hbs : b ∈ Split s := by
        rw [hsplit]
        exact List.mem_append_left _ (List.mem_append_right _ hb)
      have := hnq q (mem_of_mem_Split s b hbs q hqb)
      rw [hq] at this
      exact Bool.noConfusion this

/-- Witness for C9 (amended): the token `hello world` of the specification scenario is
trimmed and is cut from a quoted region of its line, and the token `a` of the quote-free
line `a b` holds no space. -/
theorem safeSplit_space_in_region_witness :
    "hello world".toList ∈ safeSplit "GET /users/1 \"hello world\"".toList
      ∧ ("hello world".toList ≠ [] ∧ TrimSpace "hello world".toList = "hello world".toList)
      ∧ Region (Split "GET /users/1 \"hello world\"".toList) "hello world".toList
      ∧ ' ' ∉ "a".toList :=
  ⟨by decide,
   (safeSplit_space_in_region "GET /users/1 \"hello world\"".toList "hello world".toList
      (by decide)).1,
   (safeSplit_space_in_region "GET /users/1 \"hello world\"".toList "hello world".toList
      (by decide)).2.1 (by decide),
   (safeSplit_space_in_region "a b".toList "a".toList (by decide)).2.2 (by decide)⟩

/-- C9 counterexample: the line `a<TAB>b` has no quote character, and its one token contains
the tab, a whitespace character. -/
theorem safeSplit_tab_counterexample :
    (∀ c ∈ "a\tb".toList, isQuote c = false) ∧
      "a\tb".toList ∈ safeSplit "a\tb".toList ∧
      '\t' ∈ "a\tb".toList ∧ isSpace '\t' = true := by
  decide

/-! ## `GetFullURL` -/

theorem head?_reReplaceAllString (p : Str) : (reReplaceAllString p).head? = p.head? := by
  induction p using reReplaceAllString.induct with
  | case1 => rfl
  | case2 c => rfl
  | case3 c d r h ih =>
    rw [reReplaceAllString, if_pos h, ih]
    simp [h.1, h.2]
  | case4 c d r h ih =>
    rw [reReplaceAllString, if_neg h]
    simp

theorem chain_reReplaceAllString (p : Str) :
    List.Chain' (fun a b => ¬ (a = '/' ∧ b = '/')) (reReplaceAllString p) := by
  induction p using reReplaceAllString.induct with
  | case1 => simp [reReplaceAllString]
  | case2 c => simp [reReplaceAllString]
  | case3 c d r h ih =>
    rw [reReplaceAllString, if_pos h]; exact ih
  | case4 c d r h ih =>
    rw [reReplaceAllString, if_neg h]
    rw [List.chain'_cons']
    refine ⟨?_, ih⟩
    intro y hy
    rw [head?_reReplaceAllString] at hy
    simp at hy
    subst hy
    exact h

theorem reReplaceAllString_of_chain (p : Str)
    (h : List.Chain' (fun a b => ¬ (a = '/' ∧ b = '/')) p) : reReplaceAllString p = p := by
  induction p using reReplaceAllString.induct with
  | case1 => rfl
  | case2 c => rfl
  | case3 c d r hcd ih =>
    exact absurd hcd (List.chain'_cons.1 h).1
  | case4 c d r hcd ih =>
    rw [reReplaceAllString, if_neg hcd, ih (List.chain'_cons.1 h).2]

/-- C3: for a path that starts with neither `http:` nor `https:`, whenever `base + "/" + path`
parses, `GetFullURL` returns the parsed URL with its path component collapsed; that path
holds no two consecutive slashes, and collapsing it again returns it unchanged. -/
theorem GetFullURL_path_collapsed (urlParse : Str → Except Error URL) (base subPath : Str)
    (u0 : URL)
    (h1 : HasPrefix subPath "http:".toList = false)
    (h2 : HasPrefix subPath "https:".toList = false)
    (hparse : urlParse (base ++ "/".toList ++ subPath) = .ok u0) :
    GetFullURL urlParse base subPath = .ok { u0 with Path := reReplaceAllString u0.Path }
      ∧ ¬ ("//".toList <:+: reReplaceAllString u0.Path)
      ∧ reReplaceAllString (reReplaceAllString u0.Path) = reReplaceAllString u0.Path := by
  have hc := chain_reReplaceAllString u0.Path
  refine ⟨?_, ?_, reReplaceAllString_of_chain _ hc⟩
  · unfold GetFullURL
    rw [h1, h2]
    simp only [Bool.or_self, Bool.false_eq_true, if_false]
    rw [hparse]
  · intro hinf
    have hpair := hc.infix hinf
    have e : "//".toList = ['/', '/'] := rfl
    rw [e] at hpair
    simp at hpair

/-- Witness for C3: base `http://localhost:8080/` and path `//foo//bar`, whose concatenation
has the path `////foo//bar`. -/
theorem GetFullURL_path_collapsed_witness :
    GetFullURL plainParse "http://localhost:8080/".toList "//foo//bar".toList
        = .ok { Scheme := "http".toList, Opaque := [], User := none,
                Host := "localhost:8080".toList, Path := "/foo/bar".toList, RawPath := [],
                OmitHost := false, ForceQuery := false, RawQuery := [], Fragment := [],
                RawFragment := [] }
      ∧ ¬ ("//".toList <:+: reReplaceAllString "////foo//bar".toList)
      ∧ reReplaceAllString (reReplaceAllString "////foo//bar".toList)
          = reReplaceAllString "////foo//bar".toList :=
  GetFullURL_path_collapsed plainParse "http://localhost:8080/".toList "//foo//bar".toList
    { Scheme := "http".toList, Opaque := [], User := none, Host := "localhost:8080".toList,
      Path := "////foo//bar".toList, RawPath := [], OmitHost := false, ForceQuery := false,
      RawQuery := [], Fragment := [], RawFragment := [] }
    (by decide) (by decide) rfl

/-- When the concatenation does not parse, `GetFullURL` returns the parser's error and no
URL. -/
theorem GetFullURL_parse_error (urlParse : Str → Except Error URL) (base subPath : Str)
    (e : Error)
    (h1 : HasPrefix subPath "http:".toList = false)
    (h2 : HasPrefix subPath "https:".toList = false)
    (hparse : urlParse (base ++ "/".toList ++ subPath) = .error e) :
    GetFullURL urlParse base subPath = .error e := by
  unfold GetFullURL
  rw [h1, h2]
  simp only [Bool.or_self, Bool.false_eq_true, if_false]
  rw [hparse]

/-- Collapsing keeps every character other than the slash, in order. -/
theorem reReplaceAllString_filter (p : Str) :
    (reReplaceAllString p).filter (fun c => c != '/') = p.filter (fun c => c != '/') := by
  induction p using reReplaceAllString.induct with
  | case1 => rfl
  | case2 c => rfl
  | case3 c d r h ih =>
    rw [reReplaceAllString, if_pos h, ih]
    simp [h.1]
  | case4 c d r h ih =>
    rw [reReplaceAllString, if_neg h, List.filter_cons, ih]
    exact (List.filter_cons (p := fun c => c != '/')).symm

/-- The URL scenario of the specification, rendered as text. -/
theorem GetFullURL_scenario :
    (GetFullURL plainParse "http://localhost:8080/".toList "//foo//bar".toList).map plainString
      = .ok "http://localhost:8080/foo/bar".toList := rfl

/-! ## `compareRes` -/

theorem mapDeepEqual_of_same {V : Type} (veq : V → V → Bool) (am bm : GoMap V)
    (hkeys : ∀ k, k ∈ am.keys ↔ k ∈ bm.keys)
    (hvals : ∀ k v w, am.lookup k = some v → bm.lookup k = some w → veq v w = true) :
    mapDeepEqual veq (some am) (some bm) = true := by
  have hperm : am.keys.Perm bm.keys :=
    (List.perm_ext_iff_of_nodup am.keys_nodup bm.keys_nodup).2 hkeys
  have hlen : am.entries.length = bm.entries.length := by
    have := hperm.length_eq
    simpa [AList.keys, List.keys] using this
  simp only [mapDeepEqual, hlen, beq_self_eq_true, Bool.true_and, List.all_eq_true]
  intro e he
  have h1 : am.lookup e.1 = some e.2 := by
    have : e.2 ∈ am.lookup e.1 := AList.mem_lookup_iff.2 he
    simpa using this
  have hk : e.1 ∈ bm.keys := (hkeys e.1).1 (List.mem_keys_of_mem he)
  have hsome : (bm.lookup e.1).isSome = true := AList.lookup_isSome.2 hk
  obtain ⟨w, hw⟩ := Option.isSome_iff_exists.1 hsome
  rw [hw]
  exact hvals e.1 e.2 w h1 hw

/-- C8: two texts that decode to objects with the same set of keys and deeply equal values
under each key compare as equal, whatever the order of the keys in either decoded map and
whatever the texts look like. -/
theorem compareRes_same_mapping {σ V : Type} (lib : Lib σ V) (a b : Str) (am bm : GoMap V)
    (ha : lib.unmarshal a = .ok (some am)) (hb : lib.unmarshal b = .ok (some bm))
    (hkeys : ∀ k, k ∈ am.keys ↔ k ∈ bm.keys)
    (hvals : ∀ k v w, am.lookup k = some v → bm.lookup k = some w → lib.valueEq v w = true) :
    compareRes lib a b = none := by
  have heq : mapDeepEqual lib.valueEq (some am) (some bm) = true :=
    mapDeepEqual_of_same lib.valueEq am bm hkeys hvals
  unfold compareRes
  rw [ha]
  simp only
  rw [hb]
  simp [heq]

/-- Witness for C8: `{"a":1,"b":2}` against `{"b": 2, "a": 1}`. -/
theorem compareRes_same_mapping_witness :
    compareRes (demoLib 200 []) "\x7b\"a\":1,\"b\":2\x7d".toList
      "\x7b\"b\": 2, \"a\": 1\x7d".toList = none :=
  compareRes_same_mapping (demoLib 200 []) _ _
    (@AList.insert Str (fun _ => JVal) _ "b".toList (JVal.num 2)
      (@AList.insert Str (fun _ => JVal) _ "a".toList (JVal.num 1) ∅))
    (@AList.insert Str (fun _ => JVal) _ "a".toList (JVal.num 1)
      (@AList.insert Str (fun _ => JVal) _ "b".toList (JVal.num 2) ∅))
    rfl rfl
    (by
      intro k
      rw [← AList.mem_keys, ← AList.mem_keys]
      simp only [AList.mem_insert, AList.not_mem_empty, or_false]
      exact or_comm)
    (by
      intro k v w h1 h2
      by_cases hb : k = "b".toList
      · subst hb
        rw [AList.lookup_insert] at h1
        rw [AList.lookup_insert_ne (by decide), AList.lookup_insert] at h2
        cases h1; cases h2; rfl
      · rw [AList.lookup_insert_ne hb] at h1
        by_cases ha : k = "a".toList
        · subst ha
          rw [AList.lookup_insert] at h1 h2
          cases h1; cases h2; rfl
        · rw [AList.lookup_insert_ne ha] at h1
          simp at h1)

/-! ## `replay` -/

theorem replayFrom_append {σ V : Type} (lib : Lib σ V) (cont : Bool) :
    ∀ (pre rest : List Str) (st0 st : ReplayState σ),
      replayFrom lib cont st0 pre = (none, st) →
      replayFrom lib cont st0 (pre ++ rest) = replayFrom lib cont st rest := by
  intro pre
  induction pre with
  | nil =>
    intro rest st0 st h
    simp only [replayFrom, Prod.mk.injEq, true_and] at h
    rw [h]; rfl
  | cons l ls ih =>
    intro rest st0 st h
    cases hstep : replayLine lib cont st0 l with
    | next st1 =>
      simp only [List.cons_append, replayFrom, hstep] at h ⊢
      exact ih rest st1 st h
    | stop e st1 =>
      simp [replayFrom, hstep] at h

/-- A line on which `safeSplit` returns tokens has no mismatched quotes. -/
theorem quotesMismatched_of_tokens (l : Str) (h : safeSplit l ≠ []) :
    quotesMismatched l = false := by
  unfold safeSplit at h
  unfold quotesMismatched
  by_cases hq : ((Split l).foldl splitStep splitInit).inquote ≠ []
  · simp [hq] at h
  · simp [hq]

/-- A line with mismatched quotes yields no token. -/
theorem safeSplit_of_quotesMismatched (l : Str) (h : quotesMismatched l = true) :
    safeSplit l = [] := by
  by_contra hne
  rw [quotesMismatched_of_tokens l hne] at h
  exact Bool.noConfusion h

/-- On a line with tokens the loop body of `replay` runs on those tokens, nothing being
logged by `safeSplit`. -/
theorem replayLine_of_tokens {σ V : Type} (lib : Lib σ V) (cont : Bool) (st : ReplayState σ)
    (l : Str) (h : safeSplit l ≠ []) :
    replayLine lib cont st l = replayArgs lib cont st (safeSplit l) := by
  have hlen : (safeSplit l).length ≠ 0 := fun e => h (List.length_eq_zero.1 e)
  simp only [replayLine, quotesMismatched_of_tokens l h, Bool.false_eq_true, if_false, hlen]

/-- A blank line (no token, quotes not mismatched) leaves the state of `replay` as it is. -/
theorem replayLine_blank {σ V : Type} (lib : Lib σ V) (cont : Bool) (st : ReplayState σ)
    (l : Str) (h : safeSplit l = []) (hm : quotesMismatched l = false) :
    replayLine lib cont st l = .next st := by
  simp [replayLine, h, hm]

/-- A line with mismatched quotes is skipped by `replay` in either state, after the
`mismatched quotes` line is logged. -/
theorem replayLine_mismatched {σ V : Type} (lib : Lib σ V) (cont : Bool)
    (st : ReplayState σ) (l : Str) (hm : quotesMismatched l = true) :
    replayLine lib cont st l = .next { st with log := st.log ++ [.mismatchedQuotes] } := by
  simp [replayLine, safeSplit_of_quotesMismatched l hm, hm]

theorem replayLine_directive {σ V : Type} (lib : Lib σ V) (cont : Bool) (st : ReplayState σ)
    (l : Str) (hexp : st.exp = false) (hdir : requestDirective (safeSplit l) = true) :
    replayLine lib cont st l = .next { st with cmdArgs := safeSplit l, exp := true } := by
  have hne : safeSplit l ≠ [] := by
    intro h
    rw [h] at hdir
    simp [requestDirective] at hdir
  rw [replayLine_of_tokens lib cont st l hne]
  generalize safeSplit l = args at hdir
  cases args with
  | nil => simp [requestDirective] at hdir
  | cons c0 rest =>
    simp only [requestDirective, Bool.and_eq_true, Bool.not_eq_true', Bool.or_eq_true,
      bne_iff_ne, ne_eq] at hdir
    obtain ⟨hcom, hset⟩ := hdir
    simp only [List.length_cons, Nat.succ_ne_zero, if_false, replayArgs, hexp,
      Bool.not_false, if_true, List.get?_cons_zero, hcom, Bool.false_eq_true]
    have es : "set".toList = ['s', 'e', 't'] := rfl
    have eu : "url".toList = ['u', 'r', 'l'] := rfl
    rw [es, eu] at hset
    by_cases h0 : c0 = ['s', 'e', 't']
    · rcases hset with h | h
      · exact absurd h0 h
      · cases rest with
        | nil => simp at h
        | cons c1 r =>
          simp only [bne_iff_ne, ne_eq] at h
          simp [h0, h]
    · simp [h0]

/-- C4 (amended): a request directive read in the awaiting-directive state becomes the
pending directive without any request being sent; if the script ends right there the run
ends normally (no fatal error, nothing dispatched), and a blank line that follows the
directive (a line that tokenizes to nothing, its quotes not being mismatched) is skipped,
the run being the same as without it. -/
theorem replay_unpaired_directive {σ V : Type} (lib : Lib σ V) (cont : Bool)
    (st0 st : ReplayState σ) (pre : List Str) (l : Str)
    (hpre : replayFrom lib cont st0 pre = (none, st))
    (hexp : st.exp = false)
    (hdir : requestDirective (safeSplit l) = true) :
    replayFrom lib cont st0 (pre ++ [l]) = (none, { st with cmdArgs := safeSplit l, exp := true })
      ∧ ∀ (blank : Str) (rest : List Str),
          safeSplit blank = [] → quotesMismatched blank = false →
          replayFrom lib cont st0 (pre ++ l :: blank :: rest)
            = replayFrom lib cont st0 (pre ++ l :: rest) := by
  have hl := replayLine_directive lib cont st l hexp hdir
  constructor
  · rw [replayFrom_append lib cont pre [l] st0 st hpre]
    simp [replayFrom, hl]
  · intro blank rest hb hm
    rw [replayFrom_append lib cont pre _ st0 st hpre,
      replayFrom_append lib cont pre _ st0 st hpre]
    simp [replayFrom, hl, replayLine_blank lib cont _ blank hb hm]

/-- Witness for C4 (amended): a comment line followed by `GET /health`; with an empty
line and the expectation `200 {}` after it, the run is the one without the empty line. -/
theorem replay_unpaired_directive_witness :
    replayFrom (demoLib 200 "\x7b\x7d".toList) false
        { client := demoClient, cmdArgs := [], exp := false, log := [] }
        (["// health check".toList] ++ ["GET /health".toList])
      = (none, { client := demoClient, cmdArgs := safeSplit "GET /health".toList, exp := true,
                 log := [] })
      ∧ replayFrom (demoLib 200 "\x7b\x7d".toList) false
          { client := demoClient, cmdArgs := [], exp := false, log := [] }
          (["// health check".toList] ++ "GET /health".toList :: [] ::
            ["200 \x7b\x7d".toList])
        = replayFrom (demoLib 200 "\x7b\x7d".toList) false
          { client := demoClient, cmdArgs := [], exp := false, log := [] }
          (["// health check".toList] ++ "GET /health".toList :: ["200 \x7b\x7d".toList]) :=
  ⟨(replay_unpaired_directive (demoLib 200 "\x7b\x7d".toList) false _
      { client := demoClient, cmdArgs := [], exp := false, log := [] }
      ["// health check".toList] "GET /health".toList (by decide) rfl (by decide)).1,
   (replay_unpaired_directive (demoLib 200 "\x7b\x7d".toList) false _
      { client := demoClient, cmdArgs := [], exp := false, log := [] }
      ["// health check".toList] "GET /health".toList (by decide) rfl (by decide)).2
      [] ["200 \x7b\x7d".toList] (by decide) (by decide)⟩

/-- C4 counterexample: the script `GET /health` alone ends normally with the directive
still pending, and with an empty line between directive and expectation the run ends
normally too. -/
theorem replay_unpaired_counterexample :
    replay (demoLib 200 []) false demoClient ["GET /health".toList]
        = (none, { client := demoClient, cmdArgs := ["GET".toList, "/health".toList],
                   exp := true, log := [] })
      ∧ (replay (demoLib 200 "\x7b\x7d".toList) false demoClient
          ["GET /health".toList, [], "200 \x7b\x7d".toList]).1 = none := by
  decide

/-- A line with mismatched quotes between directive and expectation is not a blank line:
it is skipped too, but `mismatched quotes` is logged before the case is run. -/
theorem replay_mismatched_line_logged :
    (replay (demoLib 200 "\x7b\x7d".toList) false demoClient
        ["GET /health".toList, "\"abc".toList, "200 \x7b\x7d".toList]).1 = none
      ∧ (replay (demoLib 200 "\x7b\x7d".toList) false demoClient
        ["GET /health".toList, "\"abc".toList, "200 \x7b\x7d".toList]).2.log
        = [.mismatchedQuotes, .passed "GET".toList "/health".toList 200 "\x7b\x7d".toList] := by
  decide

theorem Do_BasaeURL {σ V : Type} (lib : Lib σ V) (c : Client σ) (m p : Str) (b : Option Str) :
    (Client.Do lib c m p b).2.BasaeURL = c.BasaeURL := by
  unfold Client.Do
  cases GetFullURL lib.urlParse c.BasaeURL p with
  | error e => rfl
  | ok u =>
    simp only
    cases lib.newRequest m (lib.urlString u) with
    | some e => rfl
    | none =>
      simp only
      generalize lib.roundTrip c.HTTPClient _ = rt
      obtain ⟨res, w⟩ := rt
      cases res <;> rfl

/-- C6: with continue-on-error off, when the case on line `l` fails (the dispatch returns
an error, the expected status text differs from the decimal actual status, or the body
comparison fails) the run returns at once: the result is the state right after that one
dispatch, with one mismatch logged and the base URL untouched, whatever lines follow. -/
theorem replay_stops_at_first_failure {σ V : Type} (lib : Lib σ V)
    (st0 st : ReplayState σ) (pre post : List Str) (l method path a0 : Str)
    (hpre : replayFrom lib false st0 pre = (none, st))
    (hexp : st.exp = true)
    (hm : st.cmdArgs.get? 0 = some method) (hp : st.cmdArgs.get? 1 = some path)
    (ha0 : (safeSplit l).get? 0 = some a0)
    (hfail : (Client.Do lib st.client method path (optBody st.cmdArgs)).1.Err ≠ none
      ∨ a0 ≠ Itoa (Client.Do lib st.client method path (optBody st.cmdArgs)).1.Status
      ∨ ∃ a1, (safeSplit l).get? 1 = some a1 ∧
          compareRes lib a1 (Client.Do lib st.client method path (optBody st.cmdArgs)).1.Value
            ≠ none) :
    ∃ entry : LogEntry,
      (entry = .doError method path
          ((Client.Do lib st.client method path (optBody st.cmdArgs)).1.Err.getD [])
        ∨ entry = .statusMismatch method path a0
            (Client.Do lib st.client method path (optBody st.cmdArgs)).1.Status
            (Client.Do lib st.client method path (optBody st.cmdArgs)).1.Value
        ∨ ∃ err, entry = .bodyMismatch method path err) ∧
      replayFrom lib false st0 (pre ++ l :: post)
        = (some .returned,
            { client := (Client.Do lib st.client method path (optBody st.cmdArgs)).2,
              cmdArgs := st.cmdArgs, exp := false, log := st.log ++ [entry] }) ∧
      (Client.Do lib st.client method path (optBody st.cmdArgs)).2.BasaeURL
        = st.client.BasaeURL := by
  rw [replayFrom_append lib false pre _ st0 st hpre]
  have hne : (safeSplit l).length ≠ 0 := by
    intro h
    rw [List.length_eq_zero] at h
    rw [h] at ha0
    simp at ha0
  have hnf : ¬ ((safeSplit l).length < 2 ∧ (safeSplit l).length > 3) := by omega
  generalize hD : Client.Do lib st.client method path (optBody st.cmdArgs) = D at hfail ⊢
  obtain ⟨r, c⟩ := D
  have hstep : replayLine lib false st l =
      (match r.Err with
        | some e => Step.stop Exit.returned
            { client := c, cmdArgs := st.cmdArgs, exp := false,
              log := st.log ++ [.doError method path e] }
        | none =>
          if a0 ≠ Itoa r.Status then Step.stop Exit.returned
              { client := c, cmdArgs := st.cmdArgs, exp := false,
                log := st.log ++ [.statusMismatch method path a0 r.Status r.Value] }
          else
            match (safeSplit l).get? 1 with
            | none => Step.stop Exit.panicked
                { client := c, cmdArgs := st.cmdArgs, exp := false, log := st.log }
            | some a1 =>
              match compareRes lib a1 r.Value with
              | some err => Step.stop Exit.returned
                  { client := c, cmdArgs := st.cmdArgs, exp := false,
                    log := st.log ++ [.bodyMismatch method path err] }
              | none => Step.next
                  { client := c, cmdArgs := st.cmdArgs, exp := false,
                    log := st.log ++ [.passed method path r.Status r.Value] }) := by
    have htok : safeSplit l ≠ [] := fun e => hne (by rw [e]; rfl)
    rw [replayLine_of_tokens lib false st l htok]
    simp only [if_false, replayArgs, hexp, Bool.not_true, Bool.false_eq_true,
      hnf, hm, hp, hD, ha0, failed, Bool.not_false, if_true]
  have hB := Do_BasaeURL lib st.client method path (optBody st.cmdArgs)
  rw [hD] at hB
  simp only at hfail hB ⊢
  simp only [replayFrom, hstep]
  cases hErr : r.Err with
  | some e =>
    exact ⟨_, Or.inl (by simp), rfl, hB⟩
  | none =>
    simp only
    by_cases hs : a0 = Itoa r.Status
    · rcases hfail with h | h | ⟨a1, h1, h2⟩
      · exact absurd hErr h
      · exact absurd hs h
      · rw [if_neg (not_not.2 hs), h1]
        simp only
        cases hc : compareRes lib a1 r.Value with
        | none => exact absurd hc h2
        | some err => exact ⟨_, Or.inr (Or.inr ⟨err, rfl⟩), rfl, hB⟩
    · rw [if_pos hs]
      exact ⟨_, Or.inr (Or.inl rfl), rfl, hB⟩

/-- Witness for C6: `GET /health` expecting status 200 against a server that answers 500;
the three lines after the failed case are never run. -/
theorem replay_stops_at_first_failure_witness :
    (replayFrom (demoLib 500 "\x7b\"status\":\"ok\"\x7d".toList) false
        { client := demoClient, cmdArgs := [], exp := false, log := [] }
        (["GET /health".toList] ++ "200 \x7b\"status\":\"ok\"\x7d".toList ::
          ["set url http://other".toList, "GET /x".toList, "200 \x7b\x7d".toList])).1
      = some .returned
    ∧ (replayFrom (demoLib 500 "\x7b\"status\":\"ok\"\x7d".toList) false
        { client := demoClient, cmdArgs := [], exp := false, log := [] }
        (["GET /health".toList] ++ "200 \x7b\"status\":\"ok\"\x7d".toList ::
          ["set url http://other".toList, "GET /x".toList, "200 \x7b\x7d".toList])).2.client
      = { demoClient with HTTPClient :=
            { cookies := ["sid".toList],
              sent := [{ Method := "GET".toList, URL := "http://localhost:8080/health".toList,
                         Body := none, ContentType := none }] } } := by
  obtain ⟨entry, _, h, _⟩ :=
    replay_stops_at_first_failure (demoLib 500 "\x7b\"status\":\"ok\"\x7d".toList)
      { client := demoClient, cmdArgs := [], exp := false, log := [] }
      { client := demoClient, cmdArgs := ["GET".toList, "/health".toList], exp := true,
        log := [] }
      ["GET /health".toList]
      ["set url http://other".toList, "GET /x".toList, "200 \x7b\x7d".toList]
      "200 \x7b\"status\":\"ok\"\x7d".toList "GET".toList "/health".toList "200".toList
      (by decide) rfl rfl rfl (by decide) (Or.inr (Or.inl (by decide)))
  rw [h]
  exact ⟨rfl, rfl⟩

theorem replayArgs_never_fatal {σ V : Type} (lib : Lib σ V) (cont : Bool) (st : ReplayState σ)
    (args : List Str) (st1 : ReplayState σ) : replayArgs lib cont st args ≠ .stop .fatal st1 := by
  have hnf : ¬ (args.length < 2 ∧ args.length > 3) := by omega
  have hfailed : ∀ s : ReplayState σ, failed cont s ≠ .stop .fatal st1 := by
    intro s
    unfold failed
    split_ifs <;> simp
  unfold replayArgs
  by_cases hexp : st.exp = true
  · simp only [hexp, Bool.not_true, Bool.false_eq_true, if_false, hnf]
    cases st.cmdArgs.get? 0 with
    | none => simp
    | some m =>
      cases st.cmdArgs.get? 1 with
      | none => simp
      | some p =>
        simp only
        cases (Client.Do lib st.client m p (optBody st.cmdArgs)).1.Err with
        | some e => exact hfailed _
        | none =>
          simp only
          cases args.get? 0 with
          | none => simp
          | some a0 =>
            simp only
            split_ifs
            · exact hfailed _
            · cases args.get? 1 with
              | none => simp
              | some a1 =>
                simp only
                cases compareRes lib a1 (Client.Do lib st.client m p (optBody st.cmdArgs)).1.Value with
                | some err => exact hfailed _
                | none => simp
  · simp only [hexp, Bool.not_false, if_true]
    cases args.get? 0 with
    | none => simp
    | some c0 =>
      simp only
      split_ifs
      · simp
      · cases args.get? 1 with
        | none => simp
        | some c1 =>
          simp only
          split_ifs
          · cases args.get? 2 <;> simp
          · simp
      · simp

theorem replayArgs_continues {σ V : Type} (lib : Lib σ V) (st : ReplayState σ)
    (s b : Str) (hexp : st.exp = true) (hcmd : 2 ≤ st.cmdArgs.length) :
    ∃ st1, replayArgs lib true st [s, b] = .next st1 := by
  obtain ⟨m, p, rest, hc⟩ : ∃ m p rest, st.cmdArgs = m :: p :: rest := by
    cases h : st.cmdArgs with
    | nil => rw [h] at hcmd; simp at hcmd
    | cons m t =>
      cases t with
      | nil => rw [h] at hcmd; simp at hcmd
      | cons p rest => exact ⟨m, p, rest, rfl⟩
  have hnf : ¬ (([s, b] : List Str).length < 2 ∧ ([s, b] : List Str).length > 3) := by simp
  unfold replayArgs
  simp only [hexp, Bool.not_true, Bool.false_eq_true, if_false, hnf, hc, List.get?_cons_zero,
    List.get?_cons_succ, failed, Bool.not_true]
  cases (Client.Do lib st.client m p (optBody (m :: p :: rest))).1.Err with
  | some e => exact ⟨_, rfl⟩
  | none =>
    simp only
    split_ifs
    · exact ⟨_, rfl⟩
    · cases compareRes lib b (Client.Do lib st.client m p (optBody (m :: p :: rest))).1.Value with
      | some err => exact ⟨_, rfl⟩
      | none => exact ⟨_, rfl⟩

/-- C5 (amended): an expectation line of two or three tokens is never a format error: it
is handled exactly as its first two tokens (status text and body text, a third token is
ignored), the run is never ended by `log.Fatalf`, and with continue-on-error on and a
pending directive of at least two tokens the run always goes on to the next line. -/
theorem replay_expectation_two_or_three {σ V : Type} (lib : Lib σ V) (cont : Bool)
    (st : ReplayState σ) (l s b x : Str)
    (hexp : st.exp = true)
    (hargs : safeSplit l = [s, b] ∨ safeSplit l = [s, b, x]) :
    replayLine lib cont st l = replayArgs lib cont st [s, b]
      ∧ (∀ st1, replayLine lib cont st l ≠ .stop .fatal st1)
      ∧ (cont = true → 2 ≤ st.cmdArgs.length → ∃ st1, replayLine lib cont st l = .next st1) := by
  have h1 : replayLine lib cont st l = replayArgs lib cont st [s, b] := by
    rcases hargs with h | h
    · rw [replayLine_of_tokens lib cont st l (by rw [h]; simp), h]
    · have e : replayArgs lib cont st [s, b, x] = replayArgs lib cont st [s, b] := by
        simp [replayArgs, hexp]
      rw [replayLine_of_tokens lib cont st l (by rw [h]; simp), h, e]
  refine ⟨h1, ?_, ?_⟩
  · intro st1
    rw [h1]
    exact replayArgs_never_fatal lib cont st _ st1
  · intro hc hlen
    subst hc
    rw [h1]
    exact replayArgs_continues lib st s b hexp hlen

/-- Witness for C5 (amended): the expectation line `200 {} extra` after `GET /x`, with
continue-on-error on. -/
theorem replay_expectation_two_or_three_witness :
    replayLine (demoLib 200 "\x7b\x7d".toList) true
        { client := demoClient, cmdArgs := ["GET".toList, "/x".toList], exp := true, log := [] }
        "200 \x7b\x7d extra".toList
      = replayArgs (demoLib 200 "\x7b\x7d".toList) true
        { client := demoClient, cmdArgs := ["GET".toList, "/x".toList], exp := true, log := [] }
        ["200".toList, "\x7b\x7d".toList]
      ∧ ∃ st1, replayLine (demoLib 200 "\x7b\x7d".toList) true
          { client := demoClient, cmdArgs := ["GET".toList, "/x".toList], exp := true,
            log := [] }
          "200 \x7b\x7d extra".toList = .next st1 :=
  ⟨(replay_expectation_two_or_three (demoLib 200 "\x7b\x7d".toList) true
      { client := demoClient, cmdArgs := ["GET".toList, "/x".toList], exp := true, log := [] }
      "200 \x7b\x7d extra".toList "200".toList "\x7b\x7d".toList "extra".toList rfl
      (Or.inr (by decide))).1,
   (replay_expectation_two_or_three (demoLib 200 "\x7b\x7d".toList) true
      { client := demoClient, cmdArgs := ["GET".toList, "/x".toList], exp := true, log := [] }
      "200 \x7b\x7d extra".toList "200".toList "\x7b\x7d".toList "extra".toList rfl
      (Or.inr (by decide))).2.2 rfl (by decide)⟩

/-- C5 counterexample: the expectation line `200 {} extra` has three tokens, and the run
passes the case and ends normally, with continue-on-error on or off. -/
theorem replay_three_tokens_counterexample :
    (safeSplit "200 \x7b\x7d extra".toList).length = 3 ∧
    ∀ cont : Bool,
      replay (demoLib 200 "\x7b\x7d".toList) cont demoClient
          ["GET /x".toList, "200 \x7b\x7d extra".toList]
        = (none,
            { client := { demoClient with HTTPClient :=
                { cookies := ["sid".toList],
                  sent := [{ Method := "GET".toList, URL := "http://localhost:8080/x".toList,
                             Body := none, ContentType := none }] } },
              cmdArgs := ["GET".toList, "/x".toList], exp := false,
              log := [.passed "GET".toList "/x".toList 200 "\x7b\x7d".toList] }) := by
  refine ⟨by decide, ?_⟩
  intro cont
  cases cont <;> decide

/-- C10 (failing inputs): the script line `set` makes `replay` read `cmdArgs[1]` of a
one-token list, the line `set url` makes it read `cmdArgs[2]` of a two-token list, and the
directive `GET` without a path makes it read `cmdArgs[1]` when the case is dispatched;
each run ends in an index-out-of-range panic. -/
theorem replay_index_out_of_range {σ V : Type} (lib : Lib σ V) (cont : Bool) (c : Client σ) :
    replay lib cont c ["set".toList]
        = (some .panicked, { client := c, cmdArgs := ["set".toList], exp := false, log := [] })
      ∧ replay lib cont c ["set url".toList]
        = (some .panicked,
            { client := c, cmdArgs := ["set".toList, "url".toList], exp := false, log := [] })
      ∧ replay lib cont c ["GET".toList, "200 ok".toList]
        = (some .panicked, { client := c, cmdArgs := ["GET".toList], exp := false, log := [] }) :=
  ⟨rfl, rfl, rfl⟩

/-- The expectation line `200` has no body token: once the status matches, `args[1]` is read
out of range. -/
theorem replay_short_expectation_panics (cont : Bool) :
    (replay (demoLib 200 "\x7b\x7d".toList) cont demoClient
      ["GET /x".toList, "200".toList]).1 = some .panicked := by
  cases cont <;> decide

/-- C7 (failing inputs): `get foo` reports the base URL instead of an invalid command,
`reset now` resets the client, `clear now` clears the prompt and `exit now` leaves the
loop, although the tokens after the first do not match the command table. -/
theorem mainLine_extra_tokens {σ V : Type} (lib : Lib σ V) (headers : Bool) (sh : Shell σ) :
    mainLine lib headers sh "get foo".toList
        = .next { sh with out := sh.out ++ [.baseURL sh.client.BasaeURL] }
      ∧ mainLine lib headers sh "get foo".toList
        ≠ .next (invalidCommand sh ["get".toList, "foo".toList])
      ∧ mainLine lib headers sh "reset now".toList
        = .next { sh with client := Client.Reset lib sh.client, prompt := promptChar }
      ∧ mainLine lib headers sh "clear now".toList = .next { sh with prompt := promptChar }
      ∧ mainLine lib headers sh "exit now".toList = .stop .returned sh := by
  refine ⟨rfl, ?_, rfl, rfl, rfl⟩
  have e : mainLine lib headers sh "get foo".toList
      = .next { sh with out := sh.out ++ [.baseURL sh.client.BasaeURL] } := rfl
  rw [e]
  intro h
  injection h with h
  have := congrArg Shell.out h
  simp [invalidCommand] at this

/-- An interactive line with mismatched quotes: `safeSplit` logs `mismatched quotes` and
returns no token, so the line is then reported as an invalid command. -/
theorem mainLine_mismatched_quotes {σ V : Type} (lib : Lib σ V) (headers : Bool)
    (sh : Shell σ) :
    mainLine lib headers sh "get \"url".toList
      = .next (invalidCommand { sh with out := sh.out ++ [.mismatchedQuotes] } []) :=
  rfl

/-- Replay scenario of the specification: `GET /health` expecting `200 {"status":"ok"}`
against a server that answers exactly that passes, and nothing but the pass is logged. -/
theorem replay_pass_scenario :
    replay (demoLib 200 "\x7b\"status\":\"ok\"\x7d".toList) false demoClient
        ["GET /health".toList, "200 \x7b\"status\":\"ok\"\x7d".toList]
      = (none,
          { client := { demoClient with HTTPClient :=
              { cookies := ["sid".toList],
                sent := [{ Method := "GET".toList, URL := "http://localhost:8080/health".toList,
                           Body := none, ContentType := none }] } },
            cmdArgs := ["GET".toList, "/health".toList], exp := false,
            log := [.passed "GET".toList "/health".toList 200
                      "\x7b\"status\":\"ok\"\x7d".toList] }) := by
  decide

/-- Replay scenario of the specification: the same script against a server that answers
500 logs a status mismatch; the run returns when continue-on-error is off and goes on to
the end of the script when it is on. -/
theorem replay_status_mismatch_scenario :
    (replay (demoLib 500 "\x7b\"status\":\"ok\"\x7d".toList) false demoClient
        ["GET /health".toList, "200 \x7b\"status\":\"ok\"\x7d".toList]).1 = some .returned
    ∧ (replay (demoLib 500 "\x7b\"status\":\"ok\"\x7d".toList) false demoClient
        ["GET /health".toList, "200 \x7b\"status\":\"ok\"\x7d".toList]).2.log
      = [.statusMismatch "GET".toList "/health".toList "200".toList 500
          "\x7b\"status\":\"ok\"\x7d".toList]
    ∧ (replay (demoLib 500 "\x7b\"status\":\"ok\"\x7d".toList) true demoClient
        ["GET /health".toList, "200 \x7b\"status\":\"ok\"\x7d".toList]).1 = none := by
  decide

/-- Comparison scenario of the specification: `{"a":1}` against `{"a":"1"}` is a mismatch,
the number and the string being different decoded values. -/
theorem compareRes_type_sensitive :
    compareRes (demoLib 200 []) "\x7b\"a\":1\x7d".toList "\x7b\"a\":\"1\"\x7d".toList
      = some "\x7b\"a\":1\x7d != \x7b\"a\":\"1\"\x7d".toList := by
  decide

/-- On the stand-in library, `reset now` empties a cookie jar that held a cookie. -/
theorem mainLine_reset_drops_cookies :
    mainLine (demoLib 200 []) false
        { client := { demoClient with HTTPClient := { cookies := ["sid".toList], sent := [] } },
          prompt := promptChar, out := [] }
        "reset now".toList
      = .next { client := demoClient, prompt := promptChar, out := [] } := by
  decide
